import Mathlib

/-!
Verification of `check_code_owners_approval.py`: a shallow embedding of the
code-owner approval checker, together with theorems settling the spec's claims.

Modelling conventions:
* Python exceptions become `Except Err`; the `Err` constructors name the
  exception classes that can escape each function.
* The GitHub API surface is reduced to the data the script reads from it:
  an `Org` is the group resolver (`get_team_by_slug` as a partial map from
  team slug to member logins, `none` = `UnknownObjectException`), and a
  `RunEnv` packages the token, the contents found at the CODEOWNERS candidate
  paths (already parsed by the external `codeowners` library), the modified
  files, the approving logins, and the result of `get_organization`.
* Python's insertion-ordered `dict` is an association list written through
  `dict_insert`.
-/

namespace CodeownerApproval

/-- An owner entry as returned by the external `codeowners` library's `of`:
a pair `(owner_type, owner_name)` where `owner_type` is `"TEAM"`, `"USERNAME"`
or `"EMAIL"`, and `owner_name` is the display name as written in the
CODEOWNERS file (e.g. `"@alice"`, `"@org/team"`, `"user@example.com"`). -/
abbrev Owner := String × String

/-- One parsed CODEOWNERS rule: a glob-like path pattern and its owner list. -/
structure Rule where
  pattern : String
  owners : List Owner
deriving Repr, DecidableEq

/-- The parsed CODEOWNERS document: rules in document order. -/
abbrev CodeOwnersT := List Rule

/-- The group resolver of an organization object: `get_team_by_slug` followed by
`get_members`, as a map from team slug to member logins; `none` models the
`UnknownObjectException` GitHub raises for an unknown team (GroupNotFound). -/
abbrev Org := String → Option (List String)

/-- The exceptions that can escape the script's functions. -/
inductive Err where
  /-- `EnvironmentError("GITHUB_TOKEN environment variable not found.")` -/
  | envError
  /-- `FileNotFoundError("CODEOWNERS file not found in the repository.")` -/
  | fileNotFound
  /-- `AttributeError` from `org.get_team_by_slug` when `org` is `None` -/
  | attrError
  /-- `UnknownObjectException` from `get_team_by_slug` (GroupNotFound) -/
  | groupNotFound (slug : String)
deriving Repr, DecidableEq

/-- Modelled from the spec: glob-style pattern matching as used by the external
`codeowners` library (not part of this repository): `*` matches any character
sequence, `?` any single character, other characters match themselves. -/
def glob_match : List Char → List Char → Bool
  | [], s => s.isEmpty
  | '*' :: ps, s => s.tails.any (fun t => glob_match ps t)
  | _ :: _, [] => false
  | p :: ps, c :: cs => (p == '?' || p == c) && glob_match ps cs

/-- `owner_name.split("/")` keeps the characters after each `/`; folding keeps
only the chunk after the last `/`, i.e. Python's `owner_name.split("/")[-1]`. -/
def last_seg_aux (cs : List Char) : List Char :=
  cs.foldl (fun acc c => if c = '/' then [] else acc ++ [c]) []

/-- Python `owner_name.split("/")[-1]`: the final slash-delimited segment. -/
def last_seg (s : String) : String := String.mk (last_seg_aux s.data)

/-- Python `owner_name.replace("@", "")`: since the pattern is the single
character `@`, this removes every `@` from the string. -/
def replace_at (s : String) : String := String.mk (s.data.filter (fun c => c ≠ '@'))

/-- Modelled from the spec: "normalize by stripping a leading `@`" — used only
to state the spec's claimed normalization, for comparison with `replace_at`. -/
def strip_leading_at (s : String) : String :=
  match s.data with
  | '@' :: rest => String.mk rest
  | _ => s

/-- Modelled from the spec: the external `codeowners` library's `CodeOwners.of`
(not part of this repository): glob matching across all rules in document
order, the owner list of the last matching rule wins, empty if none match. -/
def ownersOf (rules : CodeOwnersT) (path : String) : List Owner :=
  rules.foldl (fun acc r => if glob_match r.pattern.data path.data then r.owners else acc) []

/-- `get_file_owners`: returns the owners of the given file path. -/
def get_file_owners (codeowners : CodeOwnersT) (filepath : String) : List Owner :=
  ownersOf codeowners filepath

/-- `get_team_members(org, team_slug)`: `org.get_team_by_slug(team_slug)` then
the member logins. When `org` is `None` this dereference raises
`AttributeError`; an unknown slug raises `UnknownObjectException`. The
`lru_cache` is dropped: the function is pure, so caching is unobservable. -/
def get_team_members (org : Option Org) (team_slug : String) : Except Err (List String) :=
  match org with
  | none => .error .attrError
  | some o =>
    match o team_slug with
    | none => .error (.groupNotFound team_slug)
    | some members => .ok members

/-- The owner loop of `get_missing_approvals_for_file`, as a recursion over the
owner list: a `TEAM` owner is missing when no resolved member approved, any
other owner is missing when its `@`-stripped name is not among the approvals;
exceptions from `get_team_members` propagate at the first failing owner. -/
def missing_for_owners (approved_reviews : List String) (org : Option Org) :
    List Owner → Except Err (List String)
  | [] => .ok []
  | (owner_type, owner_name) :: rest =>
    if owner_type = "TEAM" then
      match get_team_members org (last_seg owner_name) with
      | .error e => .error e
      | .ok team_members =>
        match missing_for_owners approved_reviews org rest with
        | .error e => .error e
        | .ok m =>
          if team_members.any (fun member => approved_reviews.contains member) then .ok m
          else .ok (owner_name :: m)
    else
      match missing_for_owners approved_reviews org rest with
      | .error e => .error e
      | .ok m =>
        if approved_reviews.contains (replace_at owner_name) then .ok m
        else .ok (owner_name :: m)

/-- `get_missing_approvals_for_file`: the missing-approval list for one file. -/
def get_missing_approvals_for_file (file : String) (codeowners : CodeOwnersT)
    (approved_reviews : List String) (org : Option Org) : Except Err (List String) :=
  missing_for_owners approved_reviews org (get_file_owners codeowners file)

/-- Python dict assignment `d[k] = v` on an insertion-ordered dict. -/
def dict_insert (d : List (String × List String)) (k : String) (v : List String) :
    List (String × List String) :=
  if d.any (fun p => p.1 = k) then d.map (fun p => if p.1 = k then (k, v) else p)
  else d ++ [(k, v)]

/-- The file loop of `gather_missing_approvals` with its accumulated dict. -/
def gather_aux (codeowners : CodeOwnersT) (approved_reviews : List String) (org : Option Org) :
    List String → List (String × List String) → Except Err (List (String × List String))
  | [], acc => .ok acc
  | file :: rest, acc =>
    match get_missing_approvals_for_file file codeowners approved_reviews org with
    | .error e => .error e
    | .ok missing =>
      if missing.isEmpty then gather_aux codeowners approved_reviews org rest acc
      else gather_aux codeowners approved_reviews org rest (dict_insert acc file missing)

/-- `gather_missing_approvals`: files with a non-empty missing list, as an
insertion-ordered dict from file to missing owners. -/
def gather_missing_approvals (modified_files : List String) (codeowners : CodeOwnersT)
    (approved_reviews : List String) (org : Option Org) :
    Except Err (List (String × List String)) :=
  gather_aux codeowners approved_reviews org modified_files []

/-- `get_codeowners`: try the candidate paths in order, use the first that
exists; `FileNotFoundError` when none does. The list holds the (externally
parsed) content found at `.github/CODEOWNERS`, `docs/CODEOWNERS`,
`CODEOWNERS`, with `none` for a path whose fetch fails. -/
def get_codeowners : List (Option CodeOwnersT) → Except Err CodeOwnersT
  | [] => .error .fileNotFound
  | none :: rest => get_codeowners rest
  | some co :: _ => .ok co

/-- The data one run reads from its environment and from GitHub. -/
structure RunEnv where
  /-- `os.getenv("GITHUB_TOKEN")` -/
  github_token : Option String
  /-- content found at each CODEOWNERS candidate path, in search order -/
  candidates : List (Option CodeOwnersT)
  /-- filenames of the pull request's files, in API order -/
  modified_files : List String
  /-- logins with an `APPROVED` review -/
  approved_reviews : List String
  /-- `g.get_organization(...)`, `none` when that call raised and was caught -/
  org_result : Option Org

/-- `check_all_owners_approved`: returns the success flag together with the
`::error::` annotation lines it prints (one per file with missing approvals);
exceptions propagate to the caller. `if not github_token` is also true for an
empty token string. -/
def check_all_owners_approved (env : RunEnv) : Except Err (Bool × List String) :=
  match env.github_token with
  | none => .error .envError
  | some token =>
    if token = "" then .error .envError
    else
      match get_codeowners env.candidates with
      | .error e => .error e
      | .ok codeowners =>
        match gather_missing_approvals env.modified_files codeowners
            env.approved_reviews env.org_result with
        | .error e => .error e
        | .ok missing =>
          if missing.isEmpty then .ok (true, [])
          else .ok (false, missing.map (fun p =>
            "::error::Missing approvals for " ++ p.1 ++ " from: " ++
              String.intercalate ", " p.2))

/-- `str(e)` for each modelled exception (the GitHub exception texts stand in
for the provider-dependent messages). -/
def err_message : Err → String
  | .envError => "GITHUB_TOKEN environment variable not found."
  | .fileNotFound => "CODEOWNERS file not found in the repository."
  | .attrError => "NoneType object has no attribute get_team_by_slug"
  | .groupNotFound slug => "404 Not Found: " ++ slug

/-- The `__main__` block: exit code and printed `::error::` lines; an
exception becomes a single `::error::` line and exit status 1. -/
def main_run (env : RunEnv) : Nat × List String :=
  match check_all_owners_approved env with
  | .ok (true, out) => (0, out)
  | .ok (false, out) => (1, out)
  | .error e => (1, ["::error::" ++ err_message e])

/-- Declarative characterization of one unsatisfied owner (used to state the
order/content theorems about the computed missing lists). -/
def owner_unsatisfied (approved_reviews : List String) (org : Option Org) (o : Owner) : Bool :=
  if o.1 = "TEAM" then
    match get_team_members org (last_seg o.2) with
    | .ok members => ! members.any (fun member => approved_reviews.contains member)
    | .error _ => true
  else ! approved_reviews.contains (replace_at o.2)

/-! ## Helper lemmas -/

/-- The fold of `ownersOf` computes the owners of the last matching rule,
starting from any accumulator. -/
lemma ownersOf_foldl (path : String) :
    ∀ (rules : CodeOwnersT) (acc : List Owner),
      rules.foldl (fun acc r => if glob_match r.pattern.data path.data then r.owners else acc)
          acc =
        match (rules.filter (fun r => glob_match r.pattern.data path.data)).getLast? with
        | some r => r.owners
        | none => acc := by
  intro rules
  induction rules with
  | nil => intro acc; rfl
  | cons r rs ih =>
    intro acc
    simp only [List.foldl_cons, List.filter_cons]
    by_cases hm : glob_match r.pattern.data path.data
    · rw [if_pos hm, if_pos hm, ih r.owners, List.getLast?_cons]
      cases (rs.filter (fun r => glob_match r.pattern.data path.data)).getLast? <;> rfl
    · rw [if_neg hm, if_neg hm, ih acc]

/-- Inserting a fresh key appends the binding at the end. -/
lemma dict_insert_not_mem (d : List (String × List String)) (k : String) (v : List String)
    (h : k ∉ d.map Prod.fst) : dict_insert d k v = d ++ [(k, v)] := by
  unfold dict_insert
  rw [if_neg]
  intro hc
  rw [List.any_eq_true] at hc
  obtain ⟨p, hp, he⟩ := hc
  rw [decide_eq_true_eq] at he
  exact h (List.mem_map.mpr ⟨p, hp, he⟩)

/-- A key of the dict after an insertion is an old key or the inserted one. -/
lemma dict_insert_keys (d : List (String × List String)) (k : String) (v : List String)
    (x : String) (h : x ∈ (dict_insert d k v).map Prod.fst) :
    x ∈ d.map Prod.fst ∨ x = k := by
  unfold dict_insert at h
  split at h
  · rw [List.map_map, List.mem_map] at h
    obtain ⟨p, hp, he⟩ := h
    by_cases hpk : p.1 = k
    · right
      simp only [Function.comp_apply, if_pos hpk] at he
      exact he.symm
    · left
      simp only [Function.comp_apply, if_neg hpk] at he
      exact List.mem_map.mpr ⟨p, hp, he⟩
  · rw [List.map_append, List.mem_append] at h
    rcases h with h | h
    · exact Or.inl h
    · right; simpa using h

/-- A binding of the dict after an insertion is an old binding or carries the
inserted value. -/
lemma dict_insert_vals (d : List (String × List String)) (k : String) (v : List String)
    (p : String × List String) (h : p ∈ dict_insert d k v) : p ∈ d ∨ p.2 = v := by
  unfold dict_insert at h
  split at h
  · rw [List.mem_map] at h
    obtain ⟨q, hq, he⟩ := h
    by_cases hqk : q.1 = k
    · right; rw [if_pos hqk] at he; rw [← he]
    · left; rw [if_neg hqk] at he; rwa [he] at hq
  · rw [List.mem_append] at h
    rcases h with h | h
    · exact Or.inl h
    · right; rw [List.mem_singleton] at h; rw [h]

/-- A successfully computed missing list is exactly the unsatisfied owners, in
encounter order, projected to their display names. -/
lemma mfo_ok_filter (appr : List String) (org : Option Org) :
    ∀ (owners : List Owner) (m : List String),
      missing_for_owners appr org owners = .ok m →
      m = (owners.filter (owner_unsatisfied appr org)).map Prod.snd := by
  intro owners
  induction owners with
  | nil =>
    intro m h
    simp only [missing_for_owners, Except.ok.injEq] at h
    subst h
    rfl
  | cons hd tl ih =>
    obtain ⟨t, n⟩ := hd
    intro m h
    simp only [missing_for_owners] at h
    by_cases ht : t = "TEAM"
    · rw [if_pos ht] at h
      cases htm : get_team_members org (last_seg n) with
      | error e => rw [htm] at h; simp at h
      | ok members =>
        rw [htm] at h
        cases hrec : missing_for_owners appr org tl with
        | error e => rw [hrec] at h; simp at h
        | ok m' =>
          rw [hrec] at h
          have hm' := ih m' hrec
          have hu : owner_unsatisfied appr org (t, n) =
              ! members.any (fun member => appr.contains member) := by
            simp [owner_unsatisfied, ht, htm]
          rw [List.filter_cons, hu]
          by_cases ha : members.any (fun member => appr.contains member)
          · simp only [ha, if_true] at h
            injection h with h2
            subst h2
            simp only [ha, Bool.not_true, Bool.false_eq_true, if_false]
            exact hm'
          · have ha' : members.any (fun member => appr.contains member) = false :=
              eq_false_of_ne_true ha
            simp only [ha', Bool.false_eq_true, if_false] at h
            injection h with h2
            subst h2
            simp only [ha', Bool.not_false, if_true, List.map_cons]
            exact congrArg (List.cons n) hm'
    · rw [if_neg ht] at h
      cases hrec : missing_for_owners appr org tl with
      | error e => rw [hrec] at h; simp at h
      | ok m' =>
        rw [hrec] at h
        have hm' := ih m' hrec
        have hu : owner_unsatisfied appr org (t, n) = ! appr.contains (replace_at n) := by
          simp [owner_unsatisfied, ht]
        rw [List.filter_cons, hu]
        by_cases hc : appr.contains (replace_at n)
        · simp only [hc, if_true] at h
          injection h with h2
          subst h2
          simp only [hc, Bool.not_true, Bool.false_eq_true, if_false]
          exact hm'
        · have hc' : appr.contains (replace_at n) = false :=
            eq_false_of_ne_true hc
          simp only [hc', Bool.false_eq_true, if_false] at h
          injection h with h2
          subst h2
          simp only [hc', Bool.not_false, if_true, List.map_cons]
          exact congrArg (List.cons n) hm'

/-- With the organization unresolved, the only error an owner loop can raise is
the `AttributeError` from dereferencing `None`. -/
lemma mfo_none_error_attr (appr : List String) :
    ∀ (owners : List Owner) (e : Err),
      missing_for_owners appr none owners = .error e → e = .attrError := by
  intro owners
  induction owners with
  | nil => intro e h; simp [missing_for_owners] at h
  | cons hd tl ih =>
    obtain ⟨t, n⟩ := hd
    intro e h
    simp only [missing_for_owners] at h
    by_cases ht : t = "TEAM"
    · rw [if_pos ht] at h
      simp only [get_team_members] at h
      injection h with h2
      exact h2.symm
    · rw [if_neg ht] at h
      cases hrec : missing_for_owners appr none tl with
      | error e' =>
        rw [hrec] at h
        injection h with h2
        subst h2
        exact ih _ hrec
      | ok m' =>
        rw [hrec] at h
        by_cases hc : replace_at n ∈ appr
        · simp [hc] at h
        · simp [hc] at h

/-- With the organization unresolved, the owner loop fails (with the
`AttributeError`) exactly when the owner list contains a `TEAM` owner. -/
lemma mfo_none_error_iff (appr : List String) :
    ∀ owners : List Owner,
      missing_for_owners appr none owners = .error .attrError ↔
        ∃ p, p ∈ owners ∧ p.1 = "TEAM" := by
  intro owners
  induction owners with
  | nil => simp [missing_for_owners]
  | cons hd tl ih =>
    obtain ⟨t, n⟩ := hd
    simp only [missing_for_owners]
    by_cases ht : t = "TEAM"
    · rw [if_pos ht]
      constructor
      · intro _
        exact ⟨(t, n), List.mem_cons_self _ _, ht⟩
      · intro _
        rfl
    · rw [if_neg ht]
      cases hrec : missing_for_owners appr none tl with
      | error e' =>
        have he' : e' = .attrError := mfo_none_error_attr appr tl e' hrec
        subst he'
        constructor
        · intro _
          obtain ⟨p, hp, hpt⟩ := ih.mp hrec
          exact ⟨p, List.mem_cons_of_mem _ hp, hpt⟩
        · intro _
          rfl
      | ok m' =>
        constructor
        · intro hh
          by_cases hc : replace_at n ∈ appr
          · simp [hc] at hh
          · simp [hc] at hh
        · rintro ⟨p, hp, hpt⟩
          rcases List.mem_cons.mp hp with h1 | h1
          · rw [h1] at hpt
            exact absurd hpt ht
          · have := ih.mpr ⟨p, h1, hpt⟩
            rw [this] at hrec
            simp at hrec

/-- A successful pass of the file loop appends exactly the files whose missing
list is non-empty, in input order, to the accumulated dict. -/
lemma gather_aux_ok (co : CodeOwnersT) (appr : List String) (org : Option Org) :
    ∀ (fs : List String) (acc report : List (String × List String)),
      fs.Nodup → (∀ f ∈ fs, f ∉ acc.map Prod.fst) →
      gather_aux co appr org fs acc = .ok report →
      report = acc ++ fs.filterMap (fun f =>
        match get_missing_approvals_for_file f co appr org with
        | .ok m => if m.isEmpty then none else some (f, m)
        | .error _ => none) := by
  intro fs
  induction fs with
  | nil =>
    intro acc report _ _ h
    simp only [gather_aux, Except.ok.injEq] at h
    subst h
    simp
  | cons f fs ih =>
    intro acc report hnd hdisj h
    simp only [gather_aux] at h
    cases hmf : get_missing_approvals_for_file f co appr org with
    | error e => rw [hmf] at h; simp at h
    | ok m =>
      rw [hmf] at h
      by_cases hme : m.isEmpty
      · simp only [hme, if_true] at h
        have hrest := ih acc report (List.nodup_cons.mp hnd).2
          (fun g hg => hdisj g (List.mem_cons_of_mem _ hg)) h
        rw [hrest]
        simp only [List.filterMap_cons, hmf, hme, if_true]
      · have hme' : m.isEmpty = false := eq_false_of_ne_true hme
        simp only [hme', Bool.false_eq_true, if_false] at h
        have hknot : f ∉ acc.map Prod.fst := hdisj f (List.mem_cons_self _ _)
        rw [dict_insert_not_mem acc f m hknot] at h
        have hdisj' : ∀ g ∈ fs, g ∉ (acc ++ [(f, m)]).map Prod.fst := by
          intro g hg
          rw [List.map_append, List.mem_append]
          rintro (hga | hgf)
          · exact hdisj g (List.mem_cons_of_mem _ hg) hga
          · have hgf' : g = f := by simpa using hgf
            exact absurd (hgf' ▸ hg) (List.nodup_cons.mp hnd).1
        have hrest := ih (acc ++ [(f, m)]) report (List.nodup_cons.mp hnd).2 hdisj' h
        rw [hrest]
        simp only [List.filterMap_cons, hmf, hme', Bool.false_eq_true, if_false,
          List.append_assoc, List.singleton_append]

/-- All values accumulated by the file loop stay non-empty. -/
lemma gather_aux_vals (co : CodeOwnersT) (appr : List String) (org : Option Org) :
    ∀ (fs : List String) (acc report : List (String × List String)),
      (∀ p ∈ acc, p.2 ≠ []) → gather_aux co appr org fs acc = .ok report →
      ∀ p ∈ report, p.2 ≠ [] := by
  intro fs
  induction fs with
  | nil =>
    intro acc report hacc h
    simp only [gather_aux, Except.ok.injEq] at h
    subst h
    exact hacc
  | cons f fs ih =>
    intro acc report hacc h
    simp only [gather_aux] at h
    cases hmf : get_missing_approvals_for_file f co appr org with
    | error e => rw [hmf] at h; simp at h
    | ok m =>
      rw [hmf] at h
      by_cases hme : m.isEmpty
      · simp only [hme, if_true] at h
        exact ih acc report hacc h
      · simp only [eq_false_of_ne_true hme, Bool.false_eq_true, if_false] at h
        refine ih (dict_insert acc f m) report ?_ h
        intro p hp
        rcases dict_insert_vals acc f m p hp with hpm | hpm
        · exact hacc p hpm
        · rw [hpm]
          intro hnil
          rw [hnil] at hme
          exact hme rfl


/-- A file whose per-file check returns an empty missing list never becomes a
key of the accumulated dict. -/
lemma gather_aux_no_key (co : CodeOwnersT) (appr : List String) (org : Option Org)
    (f : String) (hf : get_missing_approvals_for_file f co appr org = .ok []) :
    ∀ (fs : List String) (acc report : List (String × List String)),
      f ∉ acc.map Prod.fst → gather_aux co appr org fs acc = .ok report →
      f ∉ report.map Prod.fst := by
  intro fs
  induction fs with
  | nil =>
    intro acc report hacc h
    simp only [gather_aux, Except.ok.injEq] at h
    subst h
    exact hacc
  | cons g fs ih =>
    intro acc report hacc h
    simp only [gather_aux] at h
    cases hmg : get_missing_approvals_for_file g co appr org with
    | error e => rw [hmg] at h; simp at h
    | ok m =>
      rw [hmg] at h
      by_cases hme : m.isEmpty
      · simp only [hme, if_true] at h
        exact ih acc report hacc h
      · simp only [eq_false_of_ne_true hme, Bool.false_eq_true, if_false] at h
        refine ih (dict_insert acc g m) report ?_ h
        intro hmem
        rcases dict_insert_keys acc g m f hmem with hk | hk
        · exact hacc hk
        · subst hk
          rw [hf] at hmg
          injection hmg with h2
          rw [← h2] at hme
          exact hme rfl

/-- With the organization unresolved, the file loop fails (with the
`AttributeError`) exactly when some remaining file has a `TEAM` owner. -/
lemma gather_aux_none_error_iff (co : CodeOwnersT) (appr : List String) :
    ∀ (fs : List String) (acc : List (String × List String)),
      gather_aux co appr none fs acc = .error .attrError ↔
        ∃ f, f ∈ fs ∧ ∃ p, p ∈ get_file_owners co f ∧ p.1 = "TEAM" := by
  intro fs
  induction fs with
  | nil => intro acc; simp [gather_aux]
  | cons f fs ih =>
    intro acc
    simp only [gather_aux]
    cases hmf : get_missing_approvals_for_file f co appr none with
    | error e =>
      have he : e = .attrError :=
        mfo_none_error_attr appr (get_file_owners co f) e hmf
      subst he
      have hteam : ∃ p, p ∈ get_file_owners co f ∧ p.1 = "TEAM" :=
        (mfo_none_error_iff appr (get_file_owners co f)).mp hmf
      constructor
      · intro _
        exact ⟨f, List.mem_cons_self _ _, hteam⟩
      · intro _
        rfl
    | ok m =>
      have hnoteam : ¬ ∃ p, p ∈ get_file_owners co f ∧ p.1 = "TEAM" := by
        intro hc
        have := (mfo_none_error_iff appr (get_file_owners co f)).mpr hc
        simp only [get_missing_approvals_for_file] at hmf
        rw [this] at hmf
        simp at hmf
      by_cases hme : m.isEmpty
      · simp only [hme, if_true]
        rw [ih acc]
        constructor
        · rintro ⟨g, hg, hgt⟩
          exact ⟨g, List.mem_cons_of_mem _ hg, hgt⟩
        · rintro ⟨g, hg, hgt⟩
          rcases List.mem_cons.mp hg with h1 | h1
          · exact absurd (h1 ▸ hgt) hnoteam
          · exact ⟨g, h1, hgt⟩
      · simp only [eq_false_of_ne_true hme, Bool.false_eq_true, if_false]
        rw [ih (dict_insert acc f m)]
        constructor
        · rintro ⟨g, hg, hgt⟩
          exact ⟨g, List.mem_cons_of_mem _ hg, hgt⟩
        · rintro ⟨g, hg, hgt⟩
          rcases List.mem_cons.mp hg with h1 | h1
          · exact absurd (h1 ▸ hgt) hnoteam
          · exact ⟨g, h1, hgt⟩

/-- An owner whose team resolves to an empty member list is always appended to
the missing list, whatever the approval set. -/
lemma mfo_empty_team_mem (appr : List String) (orgF : Org) (name : String)
    (h1 : orgF (last_seg name) = some []) :
    ∀ (owners : List Owner) (m : List String),
      ("TEAM", name) ∈ owners →
      missing_for_owners appr (some orgF) owners = .ok m → name ∈ m := by
  intro owners
  induction owners with
  | nil => intro m h2 _; cases h2
  | cons hd tl ih =>
    obtain ⟨t, n⟩ := hd
    intro m h2 h3
    simp only [missing_for_owners] at h3
    by_cases ht : t = "TEAM"
    · rw [if_pos ht] at h3
      cases htm : get_team_members (some orgF) (last_seg n) with
      | error e => rw [htm] at h3; simp at h3
      | ok members =>
        rw [htm] at h3
        cases hrec : missing_for_owners appr (some orgF) tl with
        | error e => rw [hrec] at h3; simp at h3
        | ok m' =>
          rw [hrec] at h3
          rcases List.mem_cons.mp h2 with hh | hh
          · have hn : name = n := congrArg Prod.snd hh
            subst hn
            simp only [get_team_members, h1] at htm
            injection htm with h4
            rw [← h4] at h3
            simp only [List.any_nil, Bool.false_eq_true, if_false] at h3
            injection h3 with h5
            rw [← h5]
            exact List.mem_cons_self _ _
          · have hmem := ih m' hh hrec
            by_cases ha : members.any (fun member => appr.contains member)
            · simp only [ha, if_true] at h3
              injection h3 with h5
              rw [← h5]
              exact hmem
            · simp only [eq_false_of_ne_true ha, Bool.false_eq_true, if_false] at h3
              injection h3 with h5
              rw [← h5]
              exact List.mem_cons_of_mem _ hmem
    · rw [if_neg ht] at h3
      have hh : ("TEAM", name) ∈ tl := by
        rcases List.mem_cons.mp h2 with hh | hh
        · exact absurd (congrArg Prod.fst hh).symm ht
        · exact hh
      cases hrec : missing_for_owners appr (some orgF) tl with
      | error e => rw [hrec] at h3; simp at h3
      | ok m' =>
        rw [hrec] at h3
        have hmem := ih m' hh hrec
        by_cases hc : replace_at n ∈ appr
        · simp [hc] at h3
          rw [← h3]
          exact hmem
        · simp [hc] at h3
          rw [← h3]
          exact List.mem_cons_of_mem _ hmem

/-! ## Claims -/

/-- C1 (counterexample): the claim states an Individual owner is satisfied iff
its identity with only a leading `@` stripped is in the approval set. For the
owner `("EMAIL", "user@example.com")` with approval set containing exactly
`"user@example.com"` (the identity, unchanged by leading-`@` stripping), the
code still reports the owner as missing, because line 112 removes every `@`
(`"userexample.com"`), not only a leading one. -/
theorem c1_counterexample :
    (["user@example.com"] : List String).contains (strip_leading_at "user@example.com") = true ∧
      get_missing_approvals_for_file "docs/guide.md"
          [⟨"*.md", [("EMAIL", "user@example.com")]⟩] ["user@example.com"] none =
        .ok ["user@example.com"] :=
  ⟨by decide, rfl⟩

/-- C1 (amended): an Individual (non-`TEAM`) owner is satisfied — omitted from
the file's missing list — iff its identity with every `@` character removed is
a member of the approval set. -/
theorem c1_individual_satisfaction (owner_type owner_name : String)
    (appr : List String) (org : Option Org) (h : owner_type ≠ "TEAM") :
    missing_for_owners appr org [(owner_type, owner_name)] =
      .ok (if appr.contains (replace_at owner_name) then [] else [owner_name]) := by
  simp only [missing_for_owners, if_neg h]
  by_cases hc : replace_at owner_name ∈ appr
  · simp [hc]
  · simp [hc]

/-- C1 (witness): the amended theorem at the owner `("USERNAME", "@alice")`
with approval set `["alice"]`: satisfied, so the missing list is empty. -/
theorem c1_witness :
    ("USERNAME" : String) ≠ "TEAM" ∧
      missing_for_owners ["alice"] none [("USERNAME", "@alice")] = .ok [] :=
  ⟨by decide, (c1_individual_satisfaction "USERNAME" "@alice" ["alice"] none (by decide)).trans rfl⟩

/-- C4: `ownersOf` returns the owner list of the last rule in document order
whose glob pattern matches the path, and the empty list when no rule
matches. -/
theorem c4_last_match_wins (rules : CodeOwnersT) (path : String) :
    ownersOf rules path =
      match (rules.filter (fun r => glob_match r.pattern.data path.data)).getLast? with
      | some r => r.owners
      | none => [] :=
  ownersOf_foldl path rules []

/-- C5: a `TEAM` owner whose group reference resolves successfully — looked up
by the final slash-delimited segment of its name — is satisfied iff some
resolved member is in the approval set, i.e. it is appended to the missing
list iff the intersection of members and approvals is empty. -/
theorem c5_team_satisfaction (name : String) (appr : List String) (orgF : Org)
    (members : List String) (h : orgF (last_seg name) = some members) :
    missing_for_owners appr (some orgF) [("TEAM", name)] =
      .ok (if members.any (fun member => appr.contains member) then [] else [name]) := by
  simp only [missing_for_owners, get_team_members, h]
  by_cases ha : ∃ x ∈ members, x ∈ appr
  · simp [ha]
  · simp [ha]

/-- C5 (witness): the team `"org/sub/team"` is looked up under the slug
`"team"`; with members `["bob"]` and approval set `["bob"]` it is satisfied. -/
theorem c5_witness :
    missing_for_owners ["bob"]
        (some (fun s => if s = "team" then some ["bob"] else none))
        [("TEAM", "org/sub/team")] = .ok [] :=
  (c5_team_satisfaction "org/sub/team" ["bob"]
    (fun s => if s = "team" then some ["bob"] else none) ["bob"] rfl).trans rfl

/-- C9: a `TEAM` owner whose group resolves to an empty member list appears in
the missing list for every approval set. -/
theorem c9_empty_team_always_missing (appr : List String) (orgF : Org) (name : String)
    (owners : List Owner) (m : List String)
    (h1 : orgF (last_seg name) = some [])
    (h2 : ("TEAM", name) ∈ owners)
    (h3 : missing_for_owners appr (some orgF) owners = .ok m) :
    name ∈ m :=
  mfo_empty_team_mem appr orgF name h1 owners m h2 h3

/-- C9 (witness): the empty team `"@o/t"` is reported missing even though the
approval set is non-empty. -/
theorem c9_witness : "@o/t" ∈ (["@o/t"] : List String) :=
  c9_empty_team_always_missing ["anyone"]
    (fun s => if s = "t" then some [] else none) "@o/t"
    [("TEAM", "@o/t")] ["@o/t"] rfl (by decide) rfl

/-- C10: Individual satisfaction is exact, case-sensitive membership: with the
owner `("USERNAME", "@Alice")` and an approval set containing `"alice"` — the
lowercasing of the `@`-stripped identity — the owner is still reported
missing for the matching file. -/
theorem c10_case_sensitive :
    replace_at "@Alice" ≠ "alice" ∧
      String.mk ("Alice".data.map Char.toLower) = "alice" ∧
      get_missing_approvals_for_file "a.md" [⟨"*.md", [("USERNAME", "@Alice")]⟩]
          ["alice"] none = .ok ["@Alice"] :=
  ⟨by decide, by decide, rfl⟩

/-- C2 (counterexample): the claim states that with the organization
unresolved (`org = None`) evaluation completes and Team owners are reported
missing in the per-file report. Instead, dereferencing `None` raises at the
first `TEAM` owner: evaluation returns an error and no report is produced. -/
theorem c2_counterexample :
    gather_missing_approvals ["src/a.go"] [⟨"src/*", [("TEAM", "@org/backend")]⟩]
        ["bob"] none = .error .attrError :=
  rfl

/-- C2 (amended): with `org = None`, the file loop fails with the
`AttributeError` — which the top-level handler turns into a single `::error::`
line and exit status 1 — exactly when some changed file has a `TEAM` owner;
when no file has a `TEAM` owner, evaluation completes for all files. -/
theorem c2_org_none_evaluation (modified_files : List String) (codeowners : CodeOwnersT)
    (approved_reviews : List String) :
    gather_missing_approvals modified_files codeowners approved_reviews none =
        .error .attrError ↔
      ∃ f, f ∈ modified_files ∧ ∃ p, p ∈ get_file_owners codeowners f ∧ p.1 = "TEAM" :=
  gather_aux_none_error_iff codeowners approved_reviews modified_files []

/-- C3 (counterexample): the claim states that on GroupNotFound the file
appears in the missing-approval report listing that team. Instead the
exception aborts the file loop — no report is produced — and the run exits 1
with one generic `::error::` line. -/
theorem c3_counterexample :
    gather_missing_approvals ["src/a.go"] [⟨"src/*", [("TEAM", "@org/backend")]⟩] []
        (some (fun _ => none)) = .error (.groupNotFound "backend") ∧
      main_run ⟨some "tok", [some [⟨"src/*", [("TEAM", "@org/backend")]⟩]], ["src/a.go"], [],
          some (fun _ => none)⟩ =
        (1, ["::error::404 Not Found: backend"]) :=
  ⟨rfl, rfl⟩

/-- C3 (amended): a `TEAM` owner whose slug the resolver does not know makes
the owner loop fail with GroupNotFound, aborting evaluation at that owner;
the exception reaches the top-level handler, which emits a single `::error::`
line and exits 1 — the team is not listed in a per-file report. -/
theorem c3_group_not_found_propagates (appr : List String) (orgF : Org) (name : String)
    (rest : List Owner) (env : RunEnv)
    (h : orgF (last_seg name) = none) :
    missing_for_owners appr (some orgF) (("TEAM", name) :: rest) =
        .error (.groupNotFound (last_seg name)) ∧
      ∀ e, check_all_owners_approved env = .error e →
        main_run env = (1, ["::error::" ++ err_message e]) := by
  constructor
  · simp [missing_for_owners, get_team_members, h]
  · intro e he
    simp [main_run, he]

/-- C3 (witness): the amended theorem at a resolver that knows no team. -/
theorem c3_witness :
    missing_for_owners [] (some (fun _ => none)) [("TEAM", "@org/backend")] =
      .error (.groupNotFound "backend") :=
  ((c3_group_not_found_propagates [] (fun _ => none) "@org/backend" []
      ⟨none, [], [], [], none⟩ rfl).1).trans rfl

/-- C6: when orchestration completes, the exit status is 0 iff the
missing-approval report is empty; when it raises, the run exits 1 with a
single `::error::` line for that error; and the exit status is always 0
or 1. -/
theorem c6_exit_code (env : RunEnv) :
    (∀ b out codeowners missing,
        check_all_owners_approved env = .ok (b, out) →
        get_codeowners env.candidates = .ok codeowners →
        gather_missing_approvals env.modified_files codeowners env.approved_reviews
            env.org_result = .ok missing →
        ((main_run env).1 = 0 ↔ missing = [])) ∧
      (∀ e, check_all_owners_approved env = .error e →
        main_run env = (1, ["::error::" ++ err_message e])) ∧
      ((main_run env).1 = 0 ∨ (main_run env).1 = 1) := by
  refine ⟨?_, ?_, ?_⟩
  · intro b out co missing hok hco hg
    have hok' := hok
    unfold check_all_owners_approved at hok'
    cases htok : env.github_token with
    | none => rw [htok] at hok'; simp at hok'
    | some token =>
      rw [htok] at hok'
      by_cases htz : token = ""
      · simp [htz] at hok'
      · simp only [hco, hg, if_neg htz] at hok'
        by_cases hm : missing.isEmpty
        · simp only [hm, if_true] at hok'
          injection hok' with h2
          have hb : true = b := congrArg Prod.fst h2
          rw [← hb] at hok
          constructor
          · intro _
            exact List.isEmpty_iff.mp hm
          · intro _
            simp [main_run, hok]
        · simp only [eq_false_of_ne_true hm, Bool.false_eq_true, if_false] at hok'
          injection hok' with h2
          have hb : false = b := congrArg Prod.fst h2
          rw [← hb] at hok
          constructor
          · intro hmain
            simp [main_run, hok] at hmain
          · intro hnil
            rw [hnil] at hm
            exact absurd rfl hm
  · intro e he
    simp [main_run, he]
  · cases hc : check_all_owners_approved env with
    | error e => right; simp [main_run, hc]
    | ok p =>
      obtain ⟨b, out⟩ := p
      cases b
      · right; simp [main_run, hc]
      · left; simp [main_run, hc]

/-- C6 (witness): a fully approved run exits with status 0. -/
theorem c6_witness :
    (main_run ⟨some "tok", [some [⟨"*.md", [("USERNAME", "@alice")]⟩]],
        ["readme.md"], ["alice"], none⟩).1 = 0 :=
  ((c6_exit_code ⟨some "tok", [some [⟨"*.md", [("USERNAME", "@alice")]⟩]],
      ["readme.md"], ["alice"], none⟩).1 true [] [⟨"*.md", [("USERNAME", "@alice")]⟩] []
    rfl rfl rfl).mpr rfl

/-- C7: on a successful run over distinct changed files, the report holds
exactly the files with a non-empty missing list, as keys in input order, and
each file's missing list is the display names of its unsatisfied owners in
rule-declaration (encounter) order. -/
theorem c7_report_order (modified_files : List String) (codeowners : CodeOwnersT)
    (appr : List String) (org : Option Org) (report : List (String × List String))
    (hnd : modified_files.Nodup)
    (h : gather_missing_approvals modified_files codeowners appr org = .ok report) :
    report = modified_files.filterMap (fun f =>
      match get_missing_approvals_for_file f codeowners appr org with
      | .ok m => if m.isEmpty then none else some (f, m)
      | .error _ => none) ∧
    ∀ f m, (f, m) ∈ report →
      m = ((get_file_owners codeowners f).filter (owner_unsatisfied appr org)).map
        Prod.snd := by
  have h1 := gather_aux_ok codeowners appr org modified_files [] report hnd (by simp) h
  rw [List.nil_append] at h1
  refine ⟨h1, ?_⟩
  intro f m hm
  rw [h1, List.mem_filterMap] at hm
  obtain ⟨a, _, hqa⟩ := hm
  cases hmf : get_missing_approvals_for_file a codeowners appr org with
  | error e => rw [hmf] at hqa; simp at hqa
  | ok m' =>
    rw [hmf] at hqa
    by_cases hme : m'.isEmpty
    · simp [hme] at hqa
    · simp only [eq_false_of_ne_true hme, Bool.false_eq_true, if_false,
        Option.some.injEq] at hqa
      have haf : a = f := congrArg Prod.fst hqa
      have hmm : m' = m := congrArg Prod.snd hqa
      rw [haf, hmm] at hmf
      exact mfo_ok_filter appr org (get_file_owners codeowners f) m hmf

/-- C7 (witness): the per-file missing list equals the encounter-order filter
of the file's owners on a concrete run. -/
theorem c7_witness :
    (["@alice"] : List String) =
      ((get_file_owners [⟨"*.md", [("USERNAME", "@alice")]⟩] "readme.md").filter
        (owner_unsatisfied [] none)).map Prod.snd :=
  (c7_report_order ["readme.md"] [⟨"*.md", [("USERNAME", "@alice")]⟩] [] none
    [("readme.md", ["@alice"])] (by simp) rfl).2 "readme.md" ["@alice"] (by simp)

/-- C8: on a successful run, every file in the report has a non-empty missing
list, and a file whose owner lookup returns zero owners never appears as a
report key, for every approval set. -/
theorem c8_zero_owners_never_reported (modified_files : List String)
    (codeowners : CodeOwnersT) (appr : List String) (org : Option Org)
    (report : List (String × List String))
    (h : gather_missing_approvals modified_files codeowners appr org = .ok report) :
    (∀ f m, (f, m) ∈ report → m ≠ []) ∧
      ∀ f, get_file_owners codeowners f = [] → f ∉ report.map Prod.fst := by
  constructor
  · intro f m hm
    exact gather_aux_vals codeowners appr org modified_files [] report (by simp) h (f, m) hm
  · intro f hf
    have hmf : get_missing_approvals_for_file f codeowners appr org = .ok [] := by
      simp only [get_missing_approvals_for_file, hf]
      rfl
    exact gather_aux_no_key codeowners appr org f hmf modified_files [] report (by simp) h

/-- C8 (witness): a changed file matched by no rule is absent from the report
of a concrete run whose report is non-empty. -/
theorem c8_witness :
    "z.txt" ∉ ([("readme.md", ["@alice"])] : List (String × List String)).map Prod.fst :=
  (c8_zero_owners_never_reported ["z.txt", "readme.md"]
    [⟨"*.md", [("USERNAME", "@alice")]⟩] [] none
    [("readme.md", ["@alice"])] rfl).2 "z.txt" rfl

end CodeownerApproval
